import Mathlib

/-!
Shallow embedding of the Raft consensus core of leifdb
(src/internal/node/node.go and src/api/raft.proto), together with proofs
about the RPC handlers `HandleVote` and `HandleAppend`, the log
reconciliation `reconcileLogs`, and the leader-side commit advancement
`commitRecords`.

Modelling conventions:
* Go `int64` values (terms, log indices, commit indices) are Lean `Int`.
* A Go runtime panic (nil-pointer dereference, slice index out of range)
  is modelled by returning `none`; all functions that can panic are
  `Option`-valued.
* Persistence of the term record and the log (`SetTerm`/`setLog`) is
  modelled by the `term`, `votedFor` and `log` fields of `Node` itself.
* `resetElectionTimer` sets the role to `Follower`; the notification to
  the external election timer has no further effect on this state.
* The two `while` loops (commit application and the downward commit scan)
  run for an exactly known number of iterations; they are written with
  that iteration count as a structural fuel argument so that everything
  computes by kernel reduction.
-/

namespace LeifDb

/-- Protobuf message `Node` (a peer identity): id and client address. -/
structure Peer where
  id : String
  clientAddr : String
deriving DecidableEq

/-- `LogRecord.Action` from raft.proto: SET = 0, DEL = 1. -/
inductive DbAction where
  | SET
  | DEL
deriving DecidableEq

/-- Protobuf message `LogRecord`: one replicated log entry. -/
structure LogRecord where
  term : Int
  action : DbAction
  key : String
  value : String
deriving DecidableEq

/-- Role of a node (node.go: `Leader`, `Follower`; Candidate is virtual). -/
inductive Role where
  | Leader
  | Follower
deriving DecidableEq

/-- Per-peer replication state of a `ForeignNode` (gRPC handles omitted). -/
structure ForeignNode where
  nextIndex : Int
  matchIndex : Int
  available : Bool
deriving DecidableEq

/-- Protobuf message `VoteRequest`. -/
structure VoteRequest where
  term : Int
  candidate : Peer
  lastLogIndex : Int
  lastLogTerm : Int
deriving DecidableEq

/-- Protobuf message `VoteReply`. -/
structure VoteReply where
  term : Int
  voteGranted : Bool
  node : Peer
deriving DecidableEq

/-- Protobuf message `AppendRequest`. -/
structure AppendRequest where
  term : Int
  leader : Peer
  prevLogIndex : Int
  prevLogTerm : Int
  leaderCommit : Int
  entries : List LogRecord
deriving DecidableEq

/-- Protobuf message `AppendReply`. -/
structure AppendReply where
  term : Int
  success : Bool
deriving DecidableEq

/-- The `Node` struct of node.go. `otherNodes` is the peer map as an
association list; `store` is the external key-value database. The
channel `Reset`, the gRPC plumbing and the config are not part of the
consensus state and are omitted; `CheckForeignNode` is fixed to the
expected membership checker `checkForeignNode` of node.go. -/
structure Node where
  raftNode : Peer
  state : Role
  term : Int
  votedFor : Option Peer
  otherNodes : List (String × ForeignNode)
  allowVote : Bool
  commitIndex : Int
  lastApplied : Int
  log : List LogRecord
  store : List (String × String)
deriving DecidableEq

/-- Go slice read `l[i]` for an `int64` index: out of range (including
negative) is a runtime panic, modelled as `none`. -/
def entryAt (l : List LogRecord) (i : Int) : Option LogRecord :=
  if 0 ≤ i then l[i.toNat]? else none

/-- Go slice expression `l[low:]`: panics unless `0 ≤ low ≤ len l`. -/
def sliceFrom (l : List LogRecord) (low : Int) : Option (List LogRecord) :=
  if 0 ≤ low ∧ low ≤ (l.length : Int) then some (l.drop low.toNat) else none

/-- Modelled from the spec: the external key-value store (package
internal/database is not under src). `Set` replaces any binding of the
key, infallibly. -/
def dbSet (store : List (String × String)) (k v : String) :
    List (String × String) :=
  store.filter (fun kv => !(kv.1 == k)) ++ [(k, v)]

/-- Modelled from the spec: the external key-value store's `Delete`. -/
def dbDelete (store : List (String × String)) (k : String) :
    List (String × String) :=
  store.filter (fun kv => !(kv.1 == k))

/-- Lookup in the modelled key-value store. -/
def dbLookup (store : List (String × String)) (k : String) : Option String :=
  (store.find? (fun kv => kv.1 == k)).map (fun kv => kv.2)

/-- The `SET`/`DEL` dispatch applying one log record to the store
(the shared body of the apply loops in `commitRecords` and
`applyCommittedLogs`). -/
def applyEntry (store : List (String × String)) (e : LogRecord) :
    List (String × String) :=
  match e.action with
  | DbAction.SET => dbSet store e.key e.value
  | DbAction.DEL => dbDelete store e.key

/-- node.go `resetElectionTimer`: set the role back to Follower and
signal the external timer. -/
def resetElectionTimer (n : Node) : Node :=
  { n with state := Role.Follower }

/-- node.go `SetTerm`: record term and vote in memory and persist them
(persistence is modelled by the fields themselves). -/
def setTerm (n : Node) (newTerm : Int) (v : Option Peer) : Node :=
  { n with term := newTerm, votedFor := v }

/-- node.go `RedirectLeader`: the `ClientAddr` of `votedFor`, or `""`
when no vote is recorded. -/
def redirectLeader (n : Node) : String :=
  match n.votedFor with
  | none => ""
  | some v => v.clientAddr

/-- node.go `checkForeignNode`: membership test in the peer map. -/
def checkForeignNode (addr : String)
    (known : List (String × ForeignNode)) : Bool :=
  known.any (fun p => p.1 == addr)

/-- node.go `candidateLogUpToDate`. The up-to-date expression
dereferences `log.Entries[cLogIndex]` behind short-circuit `&&`; the
failure-logging branch dereferences it again guarded only by
`cLogIndex < len(log)` (not by `0 ≤ cLogIndex`), so a negative
`cLogIndex` that is not up to date panics, modelled as `none`. -/
def candidateLogUpToDate (n : Node) (cLogIndex cLogTerm : Int) :
    Option Bool :=
  (if n.commitIndex < cLogIndex then some true
   else if cLogIndex = -1 ∧ n.commitIndex = -1 then some true
   else if cLogIndex = n.commitIndex then
     (entryAt n.log cLogIndex).map (fun e => cLogTerm == e.term)
   else some false).bind fun upToDate =>
    if upToDate then some true
    else if cLogIndex < (n.log.length : Int) then
      (entryAt n.log cLogIndex).map (fun _ => false)
    else some false

/-- node.go `HandleVote`: the decision chain, in source order
(stale term; equal term, with the leader self-term-bump; unknown
candidate; log not up to date; grace window; grant). -/
def handleVote (n : Node) (req : VoteRequest) : Option (Node × VoteReply) :=
  if req.term < n.term then
    some (n, ⟨n.term, false, n.raftNode⟩)
  else if req.term = n.term then
    let n1 := if n.state = Role.Leader
      then setTerm n (n.term + 1) (some n.raftNode) else n
    some (n1, ⟨n1.term, false, n1.raftNode⟩)
  else if checkForeignNode req.candidate.id n.otherNodes = false then
    some (n, ⟨n.term, false, n.raftNode⟩)
  else
    (candidateLogUpToDate n req.lastLogIndex req.lastLogTerm).map
      fun upToDate =>
        if upToDate = false then (n, ⟨n.term, false, n.raftNode⟩)
        else if n.allowVote = false then (n, ⟨n.term, false, n.raftNode⟩)
        else
          let n1 := setTerm (resetElectionTimer n) req.term
            (some req.candidate)
          (n1, ⟨n1.term, true, n1.raftNode⟩)

/-- The `success` flag computed by node.go `validateAppend`. When
`term == n.Term`, the comparison `leaderId != n.votedFor.Id`
dereferences `votedFor`, a nil-pointer panic when no vote is recorded,
modelled as `none`. -/
def validateSuccess (n : Node) (term : Int) (leaderId : String) :
    Option Bool :=
  if term < n.term then some false
  else if term = n.term then
    match n.votedFor with
    | none => none
    | some v => some (leaderId == v.id)
  else some true

/-- node.go `validateAppend`: on success the election timer is reset. -/
def validateAppend (n : Node) (term : Int) (leaderId : String) :
    Option (Node × Bool) :=
  (validateSuccess n term leaderId).map fun success =>
    (if success then resetElectionTimer n else n, success)

/-- node.go `checkPrevious`. The line
`matches := n.Log.Entries[prevIndex].Term == prevTerm` is evaluated
before `inRange` is consulted, so `prevIndex ≥ len(log)` is a runtime
panic (index out of range), modelled as `none`. -/
def checkPrevious (n : Node) (prevIndex prevTerm : Int) : Option Bool :=
  if prevIndex < 0 then some true
  else
    let inRange := decide (prevIndex < (n.log.length : Int))
    (entryAt n.log prevIndex).map (fun e => inRange && (e.term == prevTerm))

/-- Fallback record for indexing that is always guarded in range. -/
def defaultRecord : LogRecord := ⟨0, DbAction.SET, "", ""⟩

/-- The mismatch scan of node.go `reconcileLogs`: walk the local entries
after `prevLogIndex` alongside the incoming ones. When the incoming
entries run out first the result is `prevIdx + i`; on a term conflict it
is `prevIdx + 1 + i`; `-1` when the scan finishes without a break. -/
def findMismatch (overlapping newEntries : List LogRecord) (prevIdx : Int)
    (i : Nat) : Int :=
  match overlapping with
  | [] => -1
  | a :: rest =>
    if newEntries.length ≤ i then prevIdx + (i : Int)
    else if a.term ≠ (newEntries.getD i defaultRecord).term then
      prevIdx + 1 + (i : Int)
    else findMismatch rest newEntries prevIdx (i + 1)

/-- node.go `reconcileLogs`: find the mismatch point, truncate there,
then append `body.Entries[offset:]`. The scan result is at most
`len(log) - 1` (lemmas below), so Go's `Entries[:mismatchIdx]` never
panics and is modelled with `take`; the two `[x:]` slices can panic for
a negative `prevLogIndex + 1` or a negative offset and go through
`sliceFrom`. -/
def reconcileLogs (logEntries : List LogRecord) (req : AppendRequest) :
    Option (List LogRecord) :=
  (if req.prevLogIndex < (logEntries.length : Int) - 1 then
     (sliceFrom logEntries (req.prevLogIndex + 1)).map
       (fun overlapping => findMismatch overlapping req.entries
         req.prevLogIndex 0)
   else some (-1)).bind fun mismatchIdx =>
    let truncated := if 0 ≤ mismatchIdx
      then logEntries.take mismatchIdx.toNat else logEntries
    (sliceFrom req.entries
        (((truncated.length : Int) - 1) - req.prevLogIndex)).map
      fun newLogs => truncated ++ newLogs

/-- The `for n.CommitIndex < commitIdx` loop of `applyCommittedLogs`:
increment the commit index and apply `log.Entries[n.CommitIndex]`
(a panic, `none`, past the end of the log). The loop runs exactly
`commitIdx - CommitIndex` times, supplied as structural fuel. -/
def applyLoopF : Nat → Node → Int → Option Node
  | 0, n, _ => some n
  | fuel + 1, n, commitIdx =>
    if n.commitIndex < commitIdx then
      match entryAt n.log (n.commitIndex + 1) with
      | none => none
      | some e =>
        applyLoopF fuel
          { n with
            commitIndex := n.commitIndex + 1
            store := applyEntry n.store e }
          commitIdx
    else some n

/-- The apply loop with its exact iteration count. -/
def applyLoop (n : Node) (commitIdx : Int) : Option Node :=
  applyLoopF (commitIdx - n.commitIndex).toNat n commitIdx

/-- node.go `applyCommittedLogs`: clamp the leader commit to
`len(log)` (not `len(log) - 1`), then walk the commit index forward
applying entries. -/
def applyCommittedLogs (n : Node) (commitIdx : Int) : Option Node :=
  if n.commitIndex < commitIdx then
    let lastIndex : Int := n.log.length
    let clamped := if lastIndex < commitIdx then lastIndex else commitIdx
    applyLoop n clamped
  else some n

/-- The part of node.go `HandleAppend` between the two checks and the
final term bookkeeping: reconcile the log when the request carries
entries, then apply commits. -/
def appendBody (n1 : Node) (valid matched : Bool) (req : AppendRequest) :
    Option (Node × Bool) :=
  if valid = false then some (n1, false)
  else if matched = false then some (n1, false)
  else
    (if 0 < req.entries.length then
       (reconcileLogs n1.log req).map (fun l => { n1 with log := l })
     else some n1).bind fun na =>
      (applyCommittedLogs na req.leaderCommit).map fun nb => (nb, true)

/-- The trailing `if valid` block of `HandleAppend`: adopt a higher
request term (persisting `votedFor := leader`) and reset the election
timer. -/
def appendFinish (n2 : Node) (valid : Bool) (req : AppendRequest) : Node :=
  if valid then
    resetElectionTimer
      (if n2.term < req.term then setTerm n2 req.term (some req.leader)
       else n2)
  else n2

/-- node.go `HandleAppend`: validate, check the previous entry (both
evaluated unconditionally, in this order), run the body, then the term
bookkeeping; the reply carries the current term. -/
def handleAppend (n : Node) (req : AppendRequest) :
    Option (Node × AppendReply) :=
  (validateAppend n req.term req.leader.id).bind fun p =>
    (checkPrevious p.1 req.prevLogIndex req.prevLogTerm).bind fun matched =>
      (appendBody p.1 p.2 matched req).map fun q =>
        (appendFinish q.1 p.2 req, ⟨(appendFinish q.1 p.2 req).term, q.2⟩)

/-- The replication count of node.go `commitRecords`: 1 for self plus
every peer whose `MatchIndex` is at least `i`. -/
def matchCount (nodes : List (String × ForeignNode)) (i : Int) : Nat :=
  1 + nodes.countP (fun p => decide (i ≤ p.2.matchIndex))

/-- The downward scan of `commitRecords`: from `lastIdx` down to just
above `CommitIndex`, stop at the first index replicated on at least
`majority` nodes. Runs at most `lastIdx - CommitIndex` times, supplied
as structural fuel. -/
def commitScanF : Nat → List (String × ForeignNode) → Nat → Int → Int → Int
  | 0, _, _, commitIndex, _ => commitIndex
  | fuel + 1, nodes, majority, commitIndex, lastIdx =>
    if commitIndex < lastIdx then
      if majority ≤ matchCount nodes lastIdx then lastIdx
      else commitScanF fuel nodes majority commitIndex (lastIdx - 1)
    else commitIndex

/-- The commit scan with its exact iteration bound. -/
def commitScan (nodes : List (String × ForeignNode)) (majority : Nat)
    (commitIndex lastIdx : Int) : Int :=
  commitScanF (lastIdx - commitIndex).toNat nodes majority commitIndex lastIdx

/-- The `for n.lastApplied < n.CommitIndex` loop of `commitRecords`:
advance `lastApplied` and apply `log.Entries[lastApplied]` (`none` on an
out-of-range read). Fuel is the exact iteration count. -/
def lastAppliedLoopF : Nat → Node → Option Node
  | 0, n => some n
  | fuel + 1, n =>
    if n.lastApplied < n.commitIndex then
      match entryAt n.log (n.lastApplied + 1) with
      | none => none
      | some e =>
        lastAppliedLoopF fuel
          { n with
            lastApplied := n.lastApplied + 1
            store := applyEntry n.store e }
    else some n

/-- The lastApplied loop with its exact iteration count. -/
def lastAppliedLoop (n : Node) : Option Node :=
  lastAppliedLoopF (n.commitIndex - n.lastApplied).toNat n

/-- node.go `commitRecords`: majority is `len(otherNodes)/2 + 1` (the
node itself is not counted in `numNodes` here, unlike `DoElection`),
scan downward for a new commit index, then apply records up to it. -/
def commitRecords (n : Node) : Option Node :=
  let majority := n.otherNodes.length / 2 + 1
  let newCommit := commitScan n.otherNodes majority n.commitIndex
    ((n.log.length : Int) - 1)
  lastAppliedLoop { n with commitIndex := newCommit }

/-! ## Concrete states and requests used by the claims -/

/-- The S3 state of the spec: term 7, voted for L, one log entry
{term 7, SET k v}, nothing committed, empty store. -/
def s3Node : Node :=
  { raftNode := ⟨"self", "selfAddr"⟩
    state := Role.Follower
    term := 7
    votedFor := some ⟨"L", "leaderAddr"⟩
    otherNodes := [("L", ⟨0, -1, true⟩)]
    allowVote := true
    commitIndex := -1
    lastApplied := -1
    log := [⟨7, DbAction.SET, "k", "v"⟩]
    store := [] }

/-- The S4 request of the spec: heartbeat carrying leaderCommit 0. -/
def s4Req : AppendRequest := ⟨7, ⟨"L", "leaderAddr"⟩, 0, 7, 0, []⟩

/-- The state after the S4 append: commit index 0, k ↦ v applied,
`lastApplied` untouched. -/
def s4After : Node := { s3Node with commitIndex := 0, store := [("k", "v")] }

/-- An append identical to S4 except that `leaderCommit` equals the log
length; `applyCommittedLogs` clamps to `len(log)` and walks into
`Entries[1]`. -/
def c6Req : AppendRequest := ⟨7, ⟨"L", "leaderAddr"⟩, -1, 0, 1, []⟩

/-- Leader whose three peers report `matchIndex` 0, -1, -1, holding a
single entry from an older term 1 while its own term is 5. -/
def c1Node : Node :=
  { raftNode := ⟨"self", "selfAddr"⟩
    state := Role.Leader
    term := 5
    votedFor := some ⟨"self", "selfAddr"⟩
    otherNodes := [("p1", ⟨1, 0, true⟩), ("p2", ⟨0, -1, true⟩),
      ("p3", ⟨0, -1, true⟩)]
    allowVote := true
    commitIndex := -1
    lastApplied := -1
    log := [⟨1, DbAction.SET, "a", "1"⟩]
    store := [] }

/-- A quiescent leader with no peers and an empty log, on which
`commitRecords` is a no-op. -/
def c1wNode : Node :=
  { raftNode := ⟨"n1", "a1"⟩
    state := Role.Leader
    term := 1
    votedFor := some ⟨"n1", "a1"⟩
    otherNodes := []
    allowVote := false
    commitIndex := -1
    lastApplied := -1
    log := []
    store := [] }

/-- A follower that has committed entry 0, receiving a vote request from
a known candidate with an empty log (`lastLogIndex = -1`). -/
def c3Node : Node :=
  { raftNode := ⟨"self", "selfAddr"⟩
    state := Role.Follower
    term := 5
    votedFor := some ⟨"L", "leaderAddr"⟩
    otherNodes := [("P2", ⟨0, -1, true⟩)]
    allowVote := true
    commitIndex := 0
    lastApplied := -1
    log := [⟨1, DbAction.SET, "x", "1"⟩]
    store := [] }

/-- Vote request from the known peer P2 with a higher term and an empty
candidate log. -/
def c3Req : VoteRequest := ⟨7, ⟨"P2", "p2Addr"⟩, -1, 0⟩

/-- Local log whose entry 0 term-matches the single incoming entry and
which has one extra entry beyond the incoming ones. -/
def c4Node : Node :=
  { raftNode := ⟨"self", "selfAddr"⟩
    state := Role.Follower
    term := 3
    votedFor := some ⟨"L", "leaderAddr"⟩
    otherNodes := [("L", ⟨0, -1, true⟩)]
    allowVote := true
    commitIndex := -1
    lastApplied := -1
    log := [⟨1, DbAction.SET, "a", "1"⟩, ⟨2, DbAction.SET, "c", "3"⟩]
    store := [] }

/-- Append whose sole entry has the same term as local entry 0 but a
different key/value, with `prevLogIndex = -1`. -/
def c4Req : AppendRequest :=
  ⟨4, ⟨"L", "leaderAddr"⟩, -1, 0, -1, [⟨1, DbAction.SET, "b", "9"⟩]⟩

/-- The S6 local log of the spec. -/
def s6Log : List LogRecord :=
  [⟨1, DbAction.SET, "a", "1"⟩, ⟨1, DbAction.SET, "b", "2"⟩,
   ⟨2, DbAction.SET, "c", "3"⟩]

/-- The S6 append request of the spec. -/
def s6Req : AppendRequest :=
  ⟨4, ⟨"L", "leaderAddr"⟩, 0, 1, -1, [⟨4, DbAction.SET, "b", "9"⟩]⟩

/-- Follower with an empty log receiving an append whose
`prevLogIndex` is past the end of the log. -/
def c7Node : Node :=
  { raftNode := ⟨"self", "selfAddr"⟩
    state := Role.Follower
    term := 3
    votedFor := some ⟨"L", "leaderAddr"⟩
    otherNodes := [("L", ⟨0, -1, true⟩)]
    allowVote := true
    commitIndex := -1
    lastApplied := -1
    log := []
    store := [] }

/-- Valid append (same term, same leader) probing entry 0 of the empty
log. -/
def c7Req : AppendRequest := ⟨3, ⟨"L", "leaderAddr"⟩, 0, 5, -1, []⟩

/-- Freshly initialized node: term 0 from a missing term file, no vote
recorded. -/
def c8Node : Node :=
  { raftNode := ⟨"self", "selfAddr"⟩
    state := Role.Follower
    term := 0
    votedFor := none
    otherNodes := [("L", ⟨0, -1, true⟩)]
    allowVote := true
    commitIndex := -1
    lastApplied := -1
    log := []
    store := [] }

/-- Append with the same (zero) term from a leader that is not the
recorded vote (there is no recorded vote at all). -/
def c8Req : AppendRequest := ⟨0, ⟨"L", "leaderAddr"⟩, -1, 0, -1, []⟩

/-- A leader that has voted for itself, as `DoElection` records on
winning. -/
def c9Node : Node :=
  { raftNode := ⟨"self", "selfAddr"⟩
    state := Role.Leader
    term := 2
    votedFor := some ⟨"self", "selfAddr"⟩
    otherNodes := []
    allowVote := false
    commitIndex := -1
    lastApplied := -1
    log := []
    store := [] }

/-- Follower used for the stale-term vote in the C2 witness. -/
def w2VoteNode : Node :=
  { raftNode := ⟨"n1", "a1"⟩
    state := Role.Follower
    term := 5
    votedFor := none
    otherNodes := []
    allowVote := true
    commitIndex := -1
    lastApplied := -1
    log := []
    store := [] }

/-- Stale-term vote request (S1 of the spec). -/
def w2VoteReq : VoteRequest := ⟨3, ⟨"P2", "a2"⟩, -1, 0⟩

/-! ## Preservation lemmas for the handler pipeline -/

/-- `validateAppend` can change only the role. -/
theorem validateAppend_fields {n : Node} {t : Int} {lid : String}
    {n1 : Node} {v : Bool} (h : validateAppend n t lid = some (n1, v)) :
    n1.term = n.term ∧ n1.votedFor = n.votedFor ∧ n1.log = n.log ∧
      n1.commitIndex = n.commitIndex ∧ n1.lastApplied = n.lastApplied ∧
      n1.store = n.store := by
  unfold validateAppend at h
  rw [Option.map_eq_some'] at h
  obtain ⟨s, -, heq⟩ := h
  have hn1 : n1 = if s = true then resetElectionTimer n else n := by
    cases heq; rfl
  subst hn1
  split <;> simp [resetElectionTimer]

/-- The commit-application loop can change only `commitIndex` and
`store`. -/
theorem applyLoopF_fields (fuel : Nat) :
    ∀ (n : Node) (c : Int) (n' : Node), applyLoopF fuel n c = some n' →
      n'.term = n.term ∧ n'.votedFor = n.votedFor ∧ n'.log = n.log ∧
        n'.state = n.state ∧ n'.lastApplied = n.lastApplied := by
  induction fuel with
  | zero =>
    intro n c n' h
    cases h
    exact ⟨rfl, rfl, rfl, rfl, rfl⟩
  | succ fuel ih =>
    intro n c n' h
    rw [applyLoopF] at h
    split at h
    · split at h
      · exact Option.noConfusion h
      · have hrec := ih _ _ _ h
        exact hrec
    · cases h
      exact ⟨rfl, rfl, rfl, rfl, rfl⟩

/-- `applyCommittedLogs` can change only `commitIndex` and `store`. -/
theorem applyCommittedLogs_fields {n : Node} {c : Int} {n' : Node}
    (h : applyCommittedLogs n c = some n') :
    n'.term = n.term ∧ n'.votedFor = n.votedFor ∧ n'.log = n.log ∧
      n'.state = n.state ∧ n'.lastApplied = n.lastApplied := by
  unfold applyCommittedLogs at h
  split at h
  · exact applyLoopF_fields _ _ _ _ h
  · cases h
    exact ⟨rfl, rfl, rfl, rfl, rfl⟩

/-- The append body leaves the term, the vote and the role unchanged. -/
theorem appendBody_fields {n1 : Node} {valid matched : Bool}
    {req : AppendRequest} {n2 : Node} {s : Bool}
    (h : appendBody n1 valid matched req = some (n2, s)) :
    n2.term = n1.term ∧ n2.votedFor = n1.votedFor ∧ n2.state = n1.state := by
  unfold appendBody at h
  split at h
  · cases h; exact ⟨rfl, rfl, rfl⟩
  · split at h
    · cases h; exact ⟨rfl, rfl, rfl⟩
    · rw [Option.bind_eq_some] at h
      obtain ⟨na, hna, h2⟩ := h
      rw [Option.map_eq_some'] at h2
      obtain ⟨nb, hb, heq⟩ := h2
      have hn2 : n2 = nb := by cases heq; rfl
      subst hn2
      have hna' : na.term = n1.term ∧ na.votedFor = n1.votedFor ∧
          na.state = n1.state := by
        split at hna
        · rw [Option.map_eq_some'] at hna
          obtain ⟨l, -, hl⟩ := hna
          cases hl
          exact ⟨rfl, rfl, rfl⟩
        · cases hna; exact ⟨rfl, rfl, rfl⟩
      obtain ⟨f1, f2, -, f4, -⟩ := applyCommittedLogs_fields hb
      exact ⟨f1.trans hna'.1, f2.trans hna'.2.1, f4.trans hna'.2.2⟩

/-- C2: across every completed invocation of `HandleVote` and
`HandleAppend`, the node's term never decreases. -/
theorem handlers_term_monotonic :
    (∀ (n : Node) (req : VoteRequest) (n' : Node) (r : VoteReply),
        handleVote n req = some (n', r) → n.term ≤ n'.term)
  ∧ (∀ (n : Node) (req : AppendRequest) (n' : Node) (r : AppendReply),
        handleAppend n req = some (n', r) → n.term ≤ n'.term) := by
  constructor
  · intro n req n' r h
    unfold handleVote at h
    by_cases h1 : req.term < n.term
    · rw [if_pos h1] at h
      simp only [Option.some.injEq, Prod.mk.injEq] at h
      rw [← h.1]
    · rw [if_neg h1] at h
      by_cases h2 : req.term = n.term
      · rw [if_pos h2] at h
        simp only [Option.some.injEq, Prod.mk.injEq] at h
        rw [← h.1]
        split
        · simp only [setTerm]
          omega
        · omega
      · rw [if_neg h2] at h
        by_cases h3 : checkForeignNode req.candidate.id n.otherNodes = false
        · rw [if_pos h3] at h
          simp only [Option.some.injEq, Prod.mk.injEq] at h
          rw [← h.1]
        · rw [if_neg h3] at h
          rw [Option.map_eq_some'] at h
          obtain ⟨u, -, hf⟩ := h
          by_cases h4 : u = false
          · rw [if_pos h4] at hf
            simp only [Prod.mk.injEq] at hf
            rw [← hf.1]
          · rw [if_neg h4] at hf
            by_cases h5 : n.allowVote = false
            · rw [if_pos h5] at hf
              simp only [Prod.mk.injEq] at hf
              rw [← hf.1]
            · rw [if_neg h5] at hf
              simp only [Prod.mk.injEq] at hf
              rw [← hf.1]
              simp only [setTerm, resetElectionTimer]
              omega
  · intro n req n' r h
    unfold handleAppend at h
    rw [Option.bind_eq_some] at h
    obtain ⟨⟨n1, valid⟩, hval, h⟩ := h
    rw [Option.bind_eq_some] at h
    obtain ⟨matched, -, h⟩ := h
    rw [Option.map_eq_some'] at h
    obtain ⟨⟨n2, s⟩, hb, heq⟩ := h
    have hn' : n' = appendFinish n2 valid req := by cases heq; rfl
    subst hn'
    have e1 : n1.term = n.term := (validateAppend_fields hval).1
    have e2 : n2.term = n1.term := (appendBody_fields hb).1
    unfold appendFinish
    split
    · simp only [resetElectionTimer]
      split
      · simp only [setTerm]; omega
      · omega
    · omega

/-- C2 witness: the theorem applied to a stale-term vote and to the S4
append. -/
theorem handlers_term_monotonic_witness :
    w2VoteNode.term ≤ w2VoteNode.term ∧ s3Node.term ≤ s4After.term :=
  ⟨handlers_term_monotonic.1 w2VoteNode w2VoteReq w2VoteNode
      ⟨5, false, w2VoteNode.raftNode⟩ (by decide),
   handlers_term_monotonic.2 s3Node s4Req s4After ⟨7, true⟩ (by decide)⟩

/-! ## C3: HandleVote panics in the not-up-to-date logging branch -/

/-- C3: `HandleVote` does not implement the claimed grant/deny decision
on all inputs: for a known candidate with a higher term and an empty
log (`lastLogIndex = -1`) asking a node whose `commitIndex` is 0, the
claim demands a denial with the state unchanged, but the failure-logging
branch of `candidateLogUpToDate` reads `log.Entries[-1]` (its
`indexPresent` guard checks only `cLogIndex < len(log)`), a runtime
panic, modelled as `none`. -/
theorem handleVote_panics_in_deny_logging :
    handleVote c3Node c3Req = none ∧
      candidateLogUpToDate c3Node (-1) 0 = none := by decide

/-! ## C5: the S4 append does not advance lastApplied -/

/-- C5 counterexample: after the S4 append from the S3 state the
handler returns, but `lastApplied` is still -1, not 0 as claimed. -/
theorem handleAppend_s4_lastApplied :
    (handleAppend s3Node s4Req).map (fun p => p.1.lastApplied) = some (-1)
  ∧ ¬ (handleAppend s3Node s4Req).map (fun p => p.1.lastApplied)
      = some 0 := by decide

/-- C5 (amended): from the S3 state, the S4 append returns
`AppendReply{term 7, success true}`, advances `commitIndex` to 0 and
applies k ↦ v to the store, while `lastApplied` stays -1
(`HandleAppend` never updates it; the follower applies through
`commitIndex` directly). -/
theorem handleAppend_s4_amended :
    handleAppend s3Node s4Req = some (s4After, ⟨7, true⟩)
  ∧ s4After.commitIndex = 0 ∧ s4After.lastApplied = -1
  ∧ dbLookup s4After.store "k" = some "v" := by decide

/-! ## C6: applyCommittedLogs walks past the end of the log -/

/-- C6: with `leaderCommit` equal to the log length, the valid matched
append from the S3 state clamps the commit walk to `len(log)` instead of
`len(log) - 1` and reads `log.Entries[1]` in a log of length 1 -- the
handler panics (modelled `none`) instead of leaving
`lastApplied ≤ commitIndex < len(log)`. -/
theorem handleAppend_reads_past_log_end :
    handleAppend s3Node c6Req = none ∧
      applyCommittedLogs s3Node 1 = none := by decide

/-! ## C7: checkPrevious indexes the log before its range check -/

/-- C7: `checkPrevious` computes
`matches := log.Entries[prevIndex].Term == prevTerm` before consulting
`inRange`, so `prevLogIndex ≥ len(log)` is an index-out-of-range panic
(`none`), not a `false` return, and `HandleAppend` panics instead of
replying `success = false`. -/
theorem checkPrevious_panics_past_end :
    checkPrevious c7Node 0 5 = none ∧ handleAppend c7Node c7Req = none := by
  decide

/-! ## C8: validateAppend dereferences a nil votedFor -/

/-- C8: on a freshly initialized node (term 0, no vote recorded), an
append whose term equals the current term evaluates
`leaderId != votedFor.Id` on a nil `votedFor` -- a nil-pointer panic
(`none`) instead of the claimed clean `success = false` rejection. -/
theorem validateAppend_nil_vote_panics :
    validateSuccess c8Node 0 "L" = none ∧ handleAppend c8Node c8Req = none := by
  decide

/-! ## C9: RedirectLeader ignores the role -/

/-- C9 counterexample: on a node in the Leader role that has voted for
itself (as `DoElection` records on winning), `RedirectLeader` returns
the node's own client address, not the empty string the claim
demands. -/
theorem redirectLeader_leader_not_empty :
    c9Node.state = Role.Leader ∧ redirectLeader c9Node = "selfAddr"
  ∧ "selfAddr" ≠ "" := by decide

/-- C9 (amended): `RedirectLeader` never consults the role: it returns
the client address of `votedFor` whenever a vote is recorded and the
empty string exactly when none is. -/
theorem redirectLeader_votedFor (n : Node) :
    (∀ v : Peer, n.votedFor = some v → redirectLeader n = v.clientAddr)
  ∧ (n.votedFor = none → redirectLeader n = "") := by
  constructor
  · intro v hv
    simp [redirectLeader, hv]
  · intro hv
    simp [redirectLeader, hv]

/-- C9 witness: the amended theorem applied to the self-voting leader
and to the fresh node with no recorded vote. -/
theorem redirectLeader_votedFor_witness :
    redirectLeader c9Node = "selfAddr" ∧ redirectLeader c8Node = "" :=
  ⟨(redirectLeader_votedFor c9Node).1 ⟨"self", "selfAddr"⟩ (by decide),
   (redirectLeader_votedFor c8Node).2 (by decide)⟩

/-! ## C1: commit advancement on the leader -/

/-- The downward scan either leaves the commit index alone or stops at
an index above it, within range, replicated on at least `majority`
nodes (self included). -/
theorem commitScanF_spec (fuel : Nat) :
    ∀ (nodes : List (String × ForeignNode)) (majority : Nat)
      (ci li : Int),
      commitScanF fuel nodes majority ci li = ci
      ∨ (ci < commitScanF fuel nodes majority ci li
         ∧ commitScanF fuel nodes majority ci li ≤ li
         ∧ majority ≤ matchCount nodes
            (commitScanF fuel nodes majority ci li)) := by
  induction fuel with
  | zero => intro nodes majority ci li; exact Or.inl rfl
  | succ fuel ih =>
    intro nodes majority ci li
    rw [commitScanF]
    split
    · split
      · rename_i hlt hmaj
        exact Or.inr ⟨hlt, le_refl _, hmaj⟩
      · rcases ih nodes majority ci (li - 1) with h | ⟨ha, hb, hc⟩
        · exact Or.inl h
        · exact Or.inr ⟨ha, by omega, hc⟩
    · exact Or.inl rfl

/-- If no index in `(ci, li]` reaches `majority`, the scan returns
`ci` unchanged. -/
theorem commitScanF_unchanged (fuel : Nat) :
    ∀ (nodes : List (String × ForeignNode)) (majority : Nat)
      (ci li : Int),
      (∀ i : Int, ci < i → i ≤ li → matchCount nodes i < majority) →
      commitScanF fuel nodes majority ci li = ci := by
  induction fuel with
  | zero => intro nodes majority ci li _; rfl
  | succ fuel ih =>
    intro nodes majority ci li hall
    rw [commitScanF]
    split
    · split
      · rename_i hlt hmaj
        exact absurd hmaj (by have := hall li hlt (le_refl _); omega)
      · exact ih nodes majority ci (li - 1)
          (fun i h1 h2 => hall i h1 (by omega))
    · rfl

/-- The lastApplied loop never changes the commit index. -/
theorem lastAppliedLoopF_commit (fuel : Nat) :
    ∀ (n : Node) (n' : Node), lastAppliedLoopF fuel n = some n' →
      n'.commitIndex = n.commitIndex := by
  induction fuel with
  | zero => intro n n' h; cases h; rfl
  | succ fuel ih =>
    intro n n' h
    rw [lastAppliedLoopF] at h
    split at h
    · split at h
      · exact Option.noConfusion h
      · have hrec := ih _ _ h
        exact hrec
    · cases h; rfl

/-- C1 counterexample: on a leader with three peers whose match indices
are 0, -1, -1, a log entry of term 1 and current term 5,
`commitRecords` advances the commit index to 0 although only 2 of the 4
cluster members (fewer than floor((3+1)/2)+1 = 3) have `matchIndex ≥ 0`
and `log[0].term ≠ current term`. -/
theorem commitRecords_counterexample :
    (commitRecords c1Node).map Node.commitIndex = some 0
  ∧ matchCount c1Node.otherNodes 0 < (c1Node.otherNodes.length + 1) / 2 + 1
  ∧ (entryAt c1Node.log 0).map LogRecord.term ≠ some c1Node.term := by decide

/-- C1 (amended): `commitRecords` advances `commitIndex` only to an
index `i < len(log)` for which at least `len(peers)/2 + 1` cluster
members (self counted as matching) have `matchIndex ≥ i` -- the code's
majority is computed over `len(otherNodes)`, not `len(otherNodes)+1`,
and no condition on `log[i].term` is checked -- and when no index above
the old commit index reaches that count, the commit index is
unchanged. -/
theorem commitRecords_majority (n n' : Node)
    (h : commitRecords n = some n') :
    (n.commitIndex < n'.commitIndex →
       n'.commitIndex < (n.log.length : Int)
       ∧ n.otherNodes.length / 2 + 1
           ≤ matchCount n.otherNodes n'.commitIndex)
  ∧ ((∀ i : Int, n.commitIndex < i → i < (n.log.length : Int) →
        matchCount n.otherNodes i < n.otherNodes.length / 2 + 1) →
     n'.commitIndex = n.commitIndex) := by
  unfold commitRecords at h
  have hci := lastAppliedLoopF_commit _ _ _ h
  simp only at hci
  unfold commitScan at hci
  constructor
  · intro hlt
    rcases commitScanF_spec
        (((n.log.length : Int) - 1) - n.commitIndex).toNat n.otherNodes
        (n.otherNodes.length / 2 + 1) n.commitIndex
        ((n.log.length : Int) - 1) with he | ⟨-, hb, hc⟩
    · rw [hci, he] at hlt
      omega
    · rw [hci]
      exact ⟨by omega, hc⟩
  · intro hall
    rw [hci]
    exact commitScanF_unchanged _ n.otherNodes _ n.commitIndex
      ((n.log.length : Int) - 1) (fun i h1 h2 => hall i h1 (by omega))

/-- C1 witness: the amended theorem applied to a quiescent leader with
no peers and an empty log. -/
theorem commitRecords_majority_witness :
    (c1wNode.commitIndex < c1wNode.commitIndex →
       c1wNode.commitIndex < (c1wNode.log.length : Int)
       ∧ c1wNode.otherNodes.length / 2 + 1
           ≤ matchCount c1wNode.otherNodes c1wNode.commitIndex)
  ∧ ((∀ i : Int, c1wNode.commitIndex < i → i < (c1wNode.log.length : Int) →
        matchCount c1wNode.otherNodes i
          < c1wNode.otherNodes.length / 2 + 1) →
     c1wNode.commitIndex = c1wNode.commitIndex) :=
  commitRecords_majority c1wNode c1wNode (by decide)

/-! ## The mismatch scan of reconcileLogs -/

theorem findMismatch_cons_stop {E : List LogRecord} {i : Nat}
    (h : E.length ≤ i) (a : LogRecord) (rest : List LogRecord) (p : Int) :
    findMismatch (a :: rest) E p i = p + (i : Int) := by
  simp only [findMismatch]
  rw [if_pos h]

theorem findMismatch_cons_break {E : List LogRecord} {i : Nat}
    {a : LogRecord} (h1 : ¬ E.length ≤ i)
    (h2 : a.term ≠ (E.getD i defaultRecord).term)
    (rest : List LogRecord) (p : Int) :
    findMismatch (a :: rest) E p i = p + 1 + (i : Int) := by
  simp only [findMismatch]
  rw [if_neg h1, if_pos h2]

theorem findMismatch_cons_next {E : List LogRecord} {i : Nat}
    {a : LogRecord} (h1 : ¬ E.length ≤ i)
    (h2 : a.term = (E.getD i defaultRecord).term)
    (rest : List LogRecord) (p : Int) :
    findMismatch (a :: rest) E p i = findMismatch rest E p (i + 1) := by
  simp only [findMismatch]
  rw [if_neg h1, if_neg (by simpa using h2)]

/-- Full characterization of the scan: either it finishes with no break
(every local entry term-matched an incoming one), or the incoming
entries ran out first at relative position `j` (returning
`p + len(entries)`), or a term conflict occurred at relative position
`j` (returning `p + 1 + i + j`), in each case with all earlier
positions matched. -/
theorem findMismatch_spec (E : List LogRecord) (p : Int) :
    ∀ (ov : List LogRecord) (i : Nat), i ≤ E.length →
      (findMismatch ov E p i = -1 ∧
         ∀ j : Nat, j < ov.length → i + j < E.length ∧
           (ov.getD j defaultRecord).term
             = (E.getD (i + j) defaultRecord).term)
    ∨ (∃ j : Nat, j < ov.length ∧ E.length = i + j ∧
         findMismatch ov E p i = p + (E.length : Int) ∧
         ∀ j' : Nat, j' < j →
           (ov.getD j' defaultRecord).term
             = (E.getD (i + j') defaultRecord).term)
    ∨ (∃ j : Nat, j < ov.length ∧ i + j < E.length ∧
         findMismatch ov E p i = p + 1 + ((i + j : Nat) : Int) ∧
         (ov.getD j defaultRecord).term
           ≠ (E.getD (i + j) defaultRecord).term ∧
         ∀ j' : Nat, j' < j → i + j' < E.length ∧
           (ov.getD j' defaultRecord).term
             = (E.getD (i + j') defaultRecord).term) := by
  intro ov
  induction ov with
  | nil =>
    intro i _
    left
    exact ⟨rfl, fun j hj => absurd hj (Nat.not_lt_zero j)⟩
  | cons a rest ih =>
    intro i hi
    by_cases hlen : E.length ≤ i
    · right; left
      refine ⟨0, Nat.succ_pos _, by omega, ?_,
        fun j' hj' => absurd hj' (Nat.not_lt_zero j')⟩
      rw [findMismatch_cons_stop hlen]
      have he : E.length = i := by omega
      rw [he]
    · by_cases hterm : a.term = (E.getD i defaultRecord).term
      · have heq := findMismatch_cons_next hlen hterm rest p
        rcases ih (i + 1) (by omega) with ⟨h1, h2⟩ |
            ⟨j, hj, hje, hr, hall⟩ | ⟨j, hj, hjE, hr, hneq, hall⟩
        · left
          refine ⟨heq.trans h1, ?_⟩
          intro j hjlen
          cases j with
          | zero =>
            exact ⟨by omega, by simpa using hterm⟩
          | succ j0 =>
            have hrec := h2 j0 (by simpa using Nat.lt_of_succ_lt_succ hjlen)
            refine ⟨by omega, ?_⟩
            rw [List.getD_cons_succ, show i + (j0 + 1) = (i + 1) + j0
              from by omega]
            exact hrec.2
        · right; left
          refine ⟨j + 1, by simpa using Nat.succ_lt_succ hj, by omega,
            heq.trans hr, ?_⟩
          intro j' hj'
          cases j' with
          | zero =>
            exact (by simpa using hterm)
          | succ j0 =>
            rw [List.getD_cons_succ, show i + (j0 + 1) = (i + 1) + j0
              from by omega]
            exact hall j0 (Nat.lt_of_succ_lt_succ hj')
        · right; right
          refine ⟨j + 1, by simpa using Nat.succ_lt_succ hj, by omega,
            ?_, ?_, ?_⟩
          · rw [heq, hr]
            omega
          · rw [List.getD_cons_succ, show i + (j + 1) = (i + 1) + j
              from by omega]
            exact hneq
          · intro j' hj'
            cases j' with
            | zero =>
              exact ⟨by omega, by simpa using hterm⟩
            | succ j0 =>
              have hrec := hall j0 (Nat.lt_of_succ_lt_succ hj')
              refine ⟨by omega, ?_⟩
              rw [List.getD_cons_succ, show i + (j0 + 1) = (i + 1) + j0
                from by omega]
              exact hrec.2
      · right; right
        refine ⟨0, Nat.succ_pos _, by omega, ?_, by simpa using hterm,
          fun j' hj' => absurd hj' (Nat.not_lt_zero j')⟩
        rw [findMismatch_cons_break hlen hterm rest p]
        omega

/-! ## Characterization of reconcileLogs -/

theorem entryAt_eq {l : List LogRecord} {j : Int} (h0 : 0 ≤ j)
    (hl : j < (l.length : Int)) :
    entryAt l j = some (l.getD j.toNat defaultRecord) := by
  unfold entryAt
  rw [if_pos h0]
  have hn : j.toNat < l.length := by omega
  rw [List.getElem?_eq_getElem hn, List.getD_eq_getElem?_getD,
    List.getElem?_eq_getElem hn]
  rfl

theorem getD_drop (l : List LogRecord) (n k : Nat) :
    (l.drop n).getD k defaultRecord = l.getD (n + k) defaultRecord := by
  rw [List.getD_eq_getElem?_getD, List.getD_eq_getElem?_getD,
    List.getElem?_drop]

/-- Evaluation of `reconcileLogs` through the scan branch, given the
scan result and a well-formed offset. -/
theorem reconcile_eval (log : List LogRecord) (req : AppendRequest)
    (mi : Int) (hbr : req.prevLogIndex < (log.length : Int) - 1)
    (h0 : 0 ≤ req.prevLogIndex + 1)
    (hmi : findMismatch (log.drop (req.prevLogIndex + 1).toNat)
        req.entries req.prevLogIndex 0 = mi)
    (truncated : List LogRecord)
    (htr : (if 0 ≤ mi then log.take mi.toNat else log) = truncated)
    (hoff : 0 ≤ ((truncated.length : Int) - 1) - req.prevLogIndex
      ∧ ((truncated.length : Int) - 1) - req.prevLogIndex
          ≤ (req.entries.length : Int)) :
    reconcileLogs log req
      = some (truncated ++ req.entries.drop
          ((((truncated.length : Int) - 1) - req.prevLogIndex)).toNat) := by
  unfold reconcileLogs
  rw [if_pos hbr]
  have hsl : sliceFrom log (req.prevLogIndex + 1)
      = some (log.drop (req.prevLogIndex + 1).toNat) := by
    unfold sliceFrom
    rw [if_pos ⟨h0, by omega⟩]
  rw [hsl]
  simp only [Option.map_some', Option.some_bind]
  rw [hmi, htr]
  have hs2 : sliceFrom req.entries
      (((truncated.length : Int) - 1) - req.prevLogIndex)
      = some (req.entries.drop
          ((((truncated.length : Int) - 1) - req.prevLogIndex)).toNat) := by
    unfold sliceFrom
    rw [if_pos hoff]
  rw [hs2]
  simp only [Option.map_some']

/-- Shared helper for C4 and C10: for every append with
`-1 ≤ prevLogIndex < len(log)` and non-empty entries, `reconcileLogs`
cuts the local log at a point `m` with `prevLogIndex + 1 ≤ m ≤ len(log)`
and appends `entries` from offset `m - (prevLogIndex + 1)`; every local
entry strictly between `prevLogIndex` and `m` term-matches its incoming
counterpart, and if the cut is strictly inside the log it is either a
genuine term conflict at `m` or the extra-local-entries cut at
`prevLogIndex + len(entries)`. -/
theorem reconcile_spec (log : List LogRecord) (req : AppendRequest)
    (hp : -1 ≤ req.prevLogIndex)
    (hlt : req.prevLogIndex < (log.length : Int))
    (hne : req.entries ≠ []) :
    ∃ m : Int, req.prevLogIndex + 1 ≤ m ∧ m ≤ (log.length : Int) ∧
      reconcileLogs log req
        = some (log.take m.toNat
            ++ req.entries.drop (m - (req.prevLogIndex + 1)).toNat) ∧
      (∀ j : Int, req.prevLogIndex < j → j < m →
         j - (req.prevLogIndex + 1) < (req.entries.length : Int) ∧
         (entryAt log j).map LogRecord.term
           = (entryAt req.entries (j - (req.prevLogIndex + 1))).map
               LogRecord.term) ∧
      (m < (log.length : Int) →
         (m - (req.prevLogIndex + 1) < (req.entries.length : Int) ∧
          (entryAt log m).map LogRecord.term
            ≠ (entryAt req.entries (m - (req.prevLogIndex + 1))).map
                LogRecord.term)
         ∨ m = req.prevLogIndex + (req.entries.length : Int)) := by
  have hE : 0 < req.entries.length := List.length_pos.mpr hne
  by_cases hbr : req.prevLogIndex < (log.length : Int) - 1
  · -- the scan branch runs
    have hovlen : (log.drop (req.prevLogIndex + 1).toNat).length
        = log.length - (req.prevLogIndex + 1).toNat := List.length_drop _ _
    rcases findMismatch_spec req.entries req.prevLogIndex
        (log.drop (req.prevLogIndex + 1).toNat) 0 (by omega)
      with ⟨hfm, hmatch⟩ | ⟨j0, hj0, hje, hfm, hall⟩ |
        ⟨j0, hj0, hj0E, hfm, hneq, hall⟩
    · -- no break: whole overlap matched, log kept whole
      have hovE : log.length - (req.prevLogIndex + 1).toNat
          ≤ req.entries.length := by
        have := hmatch (log.length - (req.prevLogIndex + 1).toNat - 1)
          (by omega)
        omega
      refine ⟨(log.length : Int), by omega, le_refl _, ?_, ?_, ?_⟩
      · rw [show ((log.length : Int)).toNat = log.length from by omega,
          List.take_length,
          show (((log.length : Int)) - (req.prevLogIndex + 1)).toNat
            = ((((log.length : Int)) - 1) - req.prevLogIndex).toNat
            from by omega]
        exact reconcile_eval log req (-1) hbr (by omega) hfm log
          (by rw [if_neg (by omega)]) ⟨by omega, by omega⟩
      · intro j hj1 hj2
        have hb := hmatch (j.toNat - (req.prevLogIndex + 1).toNat)
          (by omega)
        refine ⟨by omega, ?_⟩
        rw [entryAt_eq (by omega) (by omega),
          entryAt_eq (by omega) (by omega : j - (req.prevLogIndex + 1)
            < (req.entries.length : Int))]
        simp only [Option.map_some', Option.some.injEq]
        have hm := hb.2
        rw [getD_drop] at hm
        rw [show (req.prevLogIndex + 1).toNat
            + (j.toNat - (req.prevLogIndex + 1).toNat) = j.toNat
            from by omega,
          show 0 + (j.toNat - (req.prevLogIndex + 1).toNat)
            = (j - (req.prevLogIndex + 1)).toNat from by omega] at hm
        exact hm
      · intro hmlt
        exact absurd hmlt (by omega)
    · -- incoming entries ran out: cut at prevLogIndex + len(entries)
      have hje' : j0 = req.entries.length := by omega
      subst hje'
      refine ⟨req.prevLogIndex + (req.entries.length : Int), by omega,
        by omega, ?_, ?_, fun _ => Or.inr rfl⟩
      · rw [show ((req.prevLogIndex + (req.entries.length : Int))
              - (req.prevLogIndex + 1)).toNat
            = (((((log.take (req.prevLogIndex
                  + (req.entries.length : Int)).toNat).length : Int)) - 1)
                - req.prevLogIndex).toNat
            from by rw [List.length_take]; omega]
        exact reconcile_eval log req
          (req.prevLogIndex + (req.entries.length : Int)) hbr (by omega)
          hfm _ (by rw [if_pos (by omega)])
          ⟨by rw [List.length_take]; omega,
           by rw [List.length_take]; omega⟩
      · intro j hj1 hj2
        refine ⟨by omega, ?_⟩
        have hb := hall (j.toNat - (req.prevLogIndex + 1).toNat) (by omega)
        rw [entryAt_eq (by omega) (by omega),
          entryAt_eq (by omega) (by omega : j - (req.prevLogIndex + 1)
            < (req.entries.length : Int))]
        simp only [Option.map_some', Option.some.injEq]
        rw [getD_drop] at hb
        rw [show (req.prevLogIndex + 1).toNat
            + (j.toNat - (req.prevLogIndex + 1).toNat) = j.toNat
            from by omega,
          show 0 + (j.toNat - (req.prevLogIndex + 1).toNat)
            = (j - (req.prevLogIndex + 1)).toNat from by omega] at hb
        exact hb
    · -- term conflict at relative position j0
      refine ⟨req.prevLogIndex + 1 + (j0 : Int), by omega, by omega,
        ?_, ?_, ?_⟩
      · rw [show ((req.prevLogIndex + 1 + (j0 : Int))
              - (req.prevLogIndex + 1)).toNat
            = (((((log.take (req.prevLogIndex + 1
                  + (j0 : Int)).toNat).length : Int)) - 1)
                - req.prevLogIndex).toNat
            from by rw [List.length_take]; omega]
        refine reconcile_eval log req
          (req.prevLogIndex + 1 + (j0 : Int)) hbr (by omega)
          ?_ _ (by rw [if_pos (by omega)])
          ⟨by rw [List.length_take]; omega,
           by rw [List.length_take]; omega⟩
        rw [hfm]
        omega
      · intro j hj1 hj2
        have hb := hall (j.toNat - (req.prevLogIndex + 1).toNat) (by omega)
        refine ⟨by omega, ?_⟩
        rw [entryAt_eq (by omega) (by omega),
          entryAt_eq (by omega) (by omega : j - (req.prevLogIndex + 1)
            < (req.entries.length : Int))]
        simp only [Option.map_some', Option.some.injEq]
        have hm := hb.2
        rw [getD_drop] at hm
        rw [show (req.prevLogIndex + 1).toNat
            + (j.toNat - (req.prevLogIndex + 1).toNat) = j.toNat
            from by omega,
          show 0 + (j.toNat - (req.prevLogIndex + 1).toNat)
            = (j - (req.prevLogIndex + 1)).toNat from by omega] at hm
        exact hm
      · intro hmlt
        left
        refine ⟨by omega, ?_⟩
        rw [entryAt_eq (by omega) hmlt,
          entryAt_eq (by omega) (by omega : (req.prevLogIndex + 1
              + (j0 : Int)) - (req.prevLogIndex + 1)
            < (req.entries.length : Int))]
        simp only [Option.map_some', Ne, Option.some.injEq]
        rw [getD_drop] at hneq
        rw [show (req.prevLogIndex + 1).toNat + j0
            = (req.prevLogIndex + 1 + (j0 : Int)).toNat from by omega,
          show 0 + j0 = ((req.prevLogIndex + 1 + (j0 : Int))
            - (req.prevLogIndex + 1)).toNat from by omega] at hneq
        exact hneq
  · -- prevLogIndex = len(log) - 1: no scan, append everything
    refine ⟨(log.length : Int), by omega, le_refl _, ?_, ?_, ?_⟩
    · unfold reconcileLogs
      rw [if_neg hbr]
      simp only [Option.some_bind]
      rw [if_neg (by omega : ¬ (0 : Int) ≤ -1)]
      have hs : sliceFrom req.entries
          (((log.length : Int) - 1) - req.prevLogIndex)
          = some req.entries := by
        unfold sliceFrom
        rw [if_pos ⟨by omega, by omega⟩]
        rw [show ((((log.length : Int)) - 1) - req.prevLogIndex).toNat = 0
          from by omega, List.drop_zero]
      rw [hs]
      simp only [Option.map_some']
      rw [show ((log.length : Int)).toNat = log.length from by omega,
        List.take_length,
        show (((log.length : Int)) - (req.prevLogIndex + 1)).toNat = 0
          from by omega, List.drop_zero]
    · intro j hj1 hj2
      exact absurd hj2 (by omega)
    · intro hmlt
      exact absurd hmlt (by omega)

/-! ## C4: log reconciliation -/

/-- C4 counterexample: local log [{1,SET,a,1},{2,SET,c,3}], valid
matched append {term 4, prevLogIndex -1, entries [{1,SET,b,9}]}. The
claim's mismatch point is index 1 (the first local entry beyond the
incoming ones), so its result is the untouched prefix
[{1,SET,a,1}] with nothing to append (the incoming entry is already
present by index and term); the code instead truncates at index 0
(`prevLogIndex + len(entries)`) and re-appends the incoming entry,
producing [{1,SET,b,9}]. -/
theorem reconcileLogs_counterexample :
    (handleAppend c4Node c4Req).map (fun p => p.1.log)
      = some [⟨1, DbAction.SET, "b", "9"⟩]
  ∧ ¬ (handleAppend c4Node c4Req).map (fun p => p.1.log)
      = some (c4Node.log.take 1) := by decide

/-- C4 (amended): for every valid matched append with
`-1 ≤ prev_log_index < len(log)` and non-empty entries, reconciliation
truncates the local log at a cut point `m` between
`prev_log_index + 1` and `len(log)` and appends
`entries[m - (prev_log_index+1) ..]`; every local entry before the cut
term-matches its incoming counterpart, and a cut strictly inside the
log is either the first term conflict (the claim's mismatch point) or
the extra-entries cut at `prev_log_index + len(entries)` -- one entry
before the first unmatched local entry, whose term-matched predecessor
is then replaced by the final incoming entry. The concrete S6 example
holds as stated. -/
theorem reconcileLogs_amended (log : List LogRecord) (req : AppendRequest)
    (hp : -1 ≤ req.prevLogIndex)
    (hlt : req.prevLogIndex < (log.length : Int))
    (hne : req.entries ≠ []) :
    (∃ m : Int, req.prevLogIndex + 1 ≤ m ∧ m ≤ (log.length : Int) ∧
      reconcileLogs log req
        = some (log.take m.toNat
            ++ req.entries.drop (m - (req.prevLogIndex + 1)).toNat) ∧
      (∀ j : Int, req.prevLogIndex < j → j < m →
         j - (req.prevLogIndex + 1) < (req.entries.length : Int) ∧
         (entryAt log j).map LogRecord.term
           = (entryAt req.entries (j - (req.prevLogIndex + 1))).map
               LogRecord.term) ∧
      (m < (log.length : Int) →
         (m - (req.prevLogIndex + 1) < (req.entries.length : Int) ∧
          (entryAt log m).map LogRecord.term
            ≠ (entryAt req.entries (m - (req.prevLogIndex + 1))).map
                LogRecord.term)
         ∨ m = req.prevLogIndex + (req.entries.length : Int)))
  ∧ reconcileLogs s6Log s6Req
      = some [⟨1, DbAction.SET, "a", "1"⟩, ⟨4, DbAction.SET, "b", "9"⟩] :=
  ⟨reconcile_spec log req hp hlt hne, by decide⟩

/-- C4 witness: the amended theorem applied to the S6 scenario. -/
theorem reconcileLogs_amended_witness :
    (∃ m : Int, s6Req.prevLogIndex + 1 ≤ m ∧ m ≤ (s6Log.length : Int) ∧
      reconcileLogs s6Log s6Req
        = some (s6Log.take m.toNat
            ++ s6Req.entries.drop (m - (s6Req.prevLogIndex + 1)).toNat) ∧
      (∀ j : Int, s6Req.prevLogIndex < j → j < m →
         j - (s6Req.prevLogIndex + 1) < (s6Req.entries.length : Int) ∧
         (entryAt s6Log j).map LogRecord.term
           = (entryAt s6Req.entries (j - (s6Req.prevLogIndex + 1))).map
               LogRecord.term) ∧
      (m < (s6Log.length : Int) →
         (m - (s6Req.prevLogIndex + 1) < (s6Req.entries.length : Int) ∧
          (entryAt s6Log m).map LogRecord.term
            ≠ (entryAt s6Req.entries (m - (s6Req.prevLogIndex + 1))).map
                LogRecord.term)
         ∨ m = s6Req.prevLogIndex + (s6Req.entries.length : Int)))
  ∧ reconcileLogs s6Log s6Req
      = some [⟨1, DbAction.SET, "a", "1"⟩, ⟨4, DbAction.SET, "b", "9"⟩] :=
  reconcileLogs_amended s6Log s6Req (by decide) (by decide) (by decide)

/-! ## C10: reconciliation preserves the log up to prevLogIndex -/

/-- C10: for every reconciliation reachable from `HandleAppend`
(valid, matched, non-empty entries, with `prev_log_index` either -1 or
a valid index of the local log), the resulting log agrees with the
previous log at every index up to and including `prev_log_index`. -/
theorem reconcileLogs_preserves_prefix (log : List LogRecord)
    (req : AppendRequest) (hp : -1 ≤ req.prevLogIndex)
    (hlt : req.prevLogIndex < (log.length : Int))
    (hne : req.entries ≠ []) :
    ∃ r, reconcileLogs log req = some r ∧
      ∀ i : Int, 0 ≤ i → i ≤ req.prevLogIndex →
        entryAt r i = entryAt log i := by
  obtain ⟨m, hm1, hm2, heq, -, -⟩ := reconcile_spec log req hp hlt hne
  refine ⟨_, heq, ?_⟩
  intro i h0 hi
  unfold entryAt
  rw [if_pos h0, if_pos h0]
  have hiN : i.toNat < (log.take m.toNat).length := by
    rw [List.length_take]
    omega
  rw [List.getElem?_append_left hiN,
    List.getElem?_take_of_lt (by omega : i.toNat < m.toNat)]

/-- C10 witness: the theorem applied to the S6 scenario. -/
theorem reconcileLogs_preserves_prefix_witness :
    ∃ r, reconcileLogs s6Log s6Req = some r ∧
      ∀ i : Int, 0 ≤ i → i ≤ s6Req.prevLogIndex →
        entryAt r i = entryAt s6Log i :=
  reconcileLogs_preserves_prefix s6Log s6Req (by decide) (by decide)
    (by decide)

end LeifDb
